import Mathlib

/-!
# Verification of the chess move-generation engine specification

A shallow embedding of the chess position representation and legal-move
generation engine, together with the Python harness functions
(`batch_generate_moves`, `aggregate_results`) that consume it.

The engine itself is a compiled extension (`PyBoard`); its behaviour is
modelled here from the specification document, while the harness code is
translated from the Python sources.
-/

set_option maxRecDepth 10000

deriving instance DecidableEq for Except

namespace Chess

/-- Modelled from the spec: piece colours, white and black. -/
inductive Color where
  | white
  | black
deriving DecidableEq, Repr

/-- The opposing colour. -/
def Color.other : Color → Color
  | .white => .black
  | .black => .white

/-- Modelled from the spec: the six chess piece types. -/
inductive PieceType where
  | pawn
  | knight
  | bishop
  | rook
  | queen
  | king
deriving DecidableEq, Repr

/-- Modelled from the spec: a piece is a (PieceType, Color) pair. -/
structure Piece where
  pt : PieceType
  color : Color
deriving DecidableEq, Repr

/-- Modelled from the spec: engine error taxonomy (the cases the claims need). -/
inductive EngineError where
  | NoKingPresent
  | MalformedFen
deriving DecidableEq, Repr

/-- Modelled from the spec: the Position aggregate.  Squares are integers
0–63, rank-major (0 = a1 … 63 = h8); `board` lists the occupant of each
square in that order.  Castling rights are four independent booleans, the
en-passant target is an optional square, and the two counters support
draw-rule bookkeeping and FEN round-tripping. -/
structure Position where
  board : List (Option Piece)
  sideToMove : Color
  castleWK : Bool
  castleWQ : Bool
  castleBK : Bool
  castleBQ : Bool
  enPassantTarget : Option Nat
  halfmoveClock : Nat
  fullmoveNumber : Nat
deriving DecidableEq, Repr

/-- The piece on a square (squares outside 0–63 hold nothing). -/
def pieceAt (p : Position) (sq : Nat) : Option Piece :=
  if sq < 64 then p.board.getD sq none else none

/-- File (0–7) of a square, as an integer. -/
def fileOf (sq : Nat) : Int := Int.ofNat (sq % 8)

/-- Rank (0–7) of a square, as an integer. -/
def rankOf (sq : Nat) : Int := Int.ofNat (sq / 8)

/-- Square from file/rank coordinates. -/
def mkSq (f r : Int) : Nat := (r * 8 + f).toNat

/-- Whether file/rank coordinates lie on the board (no file/rank wrapping). -/
def onBoard (f r : Int) : Bool := 0 ≤ f && f < 8 && 0 ≤ r && r < 8

/-- Offset a square by (file delta, rank delta), `none` if it leaves the board. -/
def shift (sq : Nat) (df dr : Int) : Option Nat :=
  let f := fileOf sq + df
  let r := rankOf sq + dr
  if onBoard f r then some (mkSq f r) else none

/-- Modelled from the spec: a Move is origin, destination, optional promotion
piece, and a flag distinguishing the special move kinds. -/
inductive MoveKind where
  | normal
  | doublePush
  | enPassant
  | castleKS
  | castleQS
deriving DecidableEq, Repr

/-- Modelled from the spec: a generated move. -/
structure Move where
  orig : Nat
  dest : Nat
  promo : Option PieceType
  kind : MoveKind
deriving DecidableEq, Repr

/-- Knight move offsets. -/
def knightOffsets : List (Int × Int) :=
  [(1, 2), (2, 1), (2, -1), (1, -2), (-1, -2), (-2, -1), (-2, 1), (-1, 2)]

/-- King move offsets. -/
def kingOffsets : List (Int × Int) :=
  [(0, 1), (1, 1), (1, 0), (1, -1), (0, -1), (-1, -1), (-1, 0), (-1, 1)]

/-- Bishop ray directions. -/
def diagDirs : List (Int × Int) := [(1, 1), (1, -1), (-1, 1), (-1, -1)]

/-- Rook ray directions. -/
def orthoDirs : List (Int × Int) := [(0, 1), (1, 0), (0, -1), (-1, 0)]

/-- Modelled from the spec: walk a ray from (f, r) in direction (df, dr) and
return the first occupant, stopping at the board edge.  Fuel-bounded (a ray
has at most 7 steps; callers pass 8). -/
def firstAlong (p : Position) (f r df dr : Int) : Nat → Option Piece
  | 0 => none
  | fuel + 1 =>
      let f' := f + df
      let r' := r + dr
      if onBoard f' r' then
        match pieceAt p (mkSq f' r') with
        | none => firstAlong p f' r' df dr fuel
        | some pc => some pc
      else none

/-- Modelled from the spec: `isSquareAttacked(Square, byColor)` — sliding
pieces by ray-casting stopped at the first occupant, knight/king/pawn by
static offsets. -/
def isSquareAttacked (p : Position) (sq : Nat) (c : Color) : Bool :=
  let f := fileOf sq
  let r := rankOf sq
  let diagHit := diagDirs.any fun d =>
    match firstAlong p f r d.1 d.2 8 with
    | some pc => decide (pc.color = c ∧ (pc.pt = .bishop ∨ pc.pt = .queen))
    | none => false
  let orthoHit := orthoDirs.any fun d =>
    match firstAlong p f r d.1 d.2 8 with
    | some pc => decide (pc.color = c ∧ (pc.pt = .rook ∨ pc.pt = .queen))
    | none => false
  let knightHit := knightOffsets.any fun d =>
    match shift sq d.1 d.2 with
    | some s => decide (pieceAt p s = some ⟨.knight, c⟩)
    | none => false
  let kingHit := kingOffsets.any fun d =>
    match shift sq d.1 d.2 with
    | some s => decide (pieceAt p s = some ⟨.king, c⟩)
    | none => false
  let pawnDirs : List (Int × Int) :=
    match c with
    | .white => [(-1, -1), (1, -1)]
    | .black => [(-1, 1), (1, 1)]
  let pawnHit := pawnDirs.any fun d =>
    match shift sq d.1 d.2 with
    | some s => decide (pieceAt p s = some ⟨.pawn, c⟩)
    | none => false
  diagHit || orthoHit || knightHit || kingHit || pawnHit

/-- Modelled from the spec: `kingSquare(Color)` — the square of the king of
the given colour, `none` when no such king is on the board. -/
def kingSquare (p : Position) (c : Color) : Option Nat :=
  (List.range 64).find? fun sq => decide (pieceAt p sq = some ⟨.king, c⟩)

/-- Whether a square holds a piece of the given colour. -/
def occupiedBy (p : Position) (sq : Nat) (c : Color) : Bool :=
  match pieceAt p sq with
  | some pc => decide (pc.color = c)
  | none => false

/-- Modelled from the spec: ray destinations for a slider of colour `c` —
empty squares until the board edge, a friendly piece (exclusive) or an
enemy piece (inclusive, a capture).  Fuel-bounded; callers pass 8. -/
def rayDests (p : Position) (c : Color) (f r df dr : Int) : Nat → List Nat
  | 0 => []
  | fuel + 1 =>
      let f' := f + df
      let r' := r + dr
      if onBoard f' r' then
        let s := mkSq f' r'
        match pieceAt p s with
        | none => s :: rayDests p c f' r' df dr fuel
        | some pc => if pc.color = c then [] else [s]
      else []

/-- Expand a pawn arrival into four promotion moves on the last rank, else a
single move. -/
def promoExpand (c : Color) (o d : Nat) (k : MoveKind) : List Move :=
  let lastRank : Int := match c with | .white => 7 | .black => 0
  if rankOf d = lastRank then
    [PieceType.knight, .bishop, .rook, .queen].map fun pt => ⟨o, d, some pt, k⟩
  else [⟨o, d, none, k⟩]

/-- Modelled from the spec: pawn pseudo-legal moves from `sq` for the side to
move — single push onto an empty square, double push from the starting rank
when both squares are empty, diagonal captures onto enemy-occupied squares or
the en-passant target, with promotions expanded on the last rank. -/
def pawnMovesAt (p : Position) (sq : Nat) : List Move :=
  let c := p.sideToMove
  let dr : Int := match c with | .white => 1 | .black => -1
  let startRank : Int := match c with | .white => 1 | .black => 6
  let single :=
    match shift sq 0 dr with
    | some d => if pieceAt p d = none then promoExpand c sq d .normal else []
    | none => []
  let double :=
    if rankOf sq = startRank then
      match shift sq 0 dr, shift sq 0 (2 * dr) with
      | some mid, some d =>
          if pieceAt p mid = none ∧ pieceAt p d = none then
            [⟨sq, d, none, .doublePush⟩]
          else []
      | _, _ => []
    else []
  let capture (df : Int) : List Move :=
    match shift sq df dr with
    | some d =>
        if occupiedBy p d c.other then promoExpand c sq d .normal
        else if p.enPassantTarget = some d then [⟨sq, d, none, .enPassant⟩]
        else []
    | none => []
  single ++ double ++ capture (-1) ++ capture 1

/-- Modelled from the spec: knight/king offset moves — on-board squares not
occupied by a friendly piece. -/
def leaperMovesAt (p : Position) (sq : Nat) (offsets : List (Int × Int)) :
    List Move :=
  offsets.filterMap fun d =>
    match shift sq d.1 d.2 with
    | some s => if occupiedBy p s p.sideToMove then none else some ⟨sq, s, none, .normal⟩
    | none => none

/-- Modelled from the spec: slider moves along the given ray directions. -/
def sliderMovesAt (p : Position) (sq : Nat) (dirs : List (Int × Int)) :
    List Move :=
  dirs.flatMap fun d =>
    (rayDests p p.sideToMove (fileOf sq) (rankOf sq) d.1 d.2 8).map
      fun s => ⟨sq, s, none, .normal⟩

/-- The original king square of a colour. -/
def homeSquare (c : Color) : Nat :=
  match c with
  | .white => 4
  | .black => 60

/-- Modelled from the spec: castling moves for the side to move — the rights
flag is set, king and rook stand on their original squares, the squares
between them are empty, and the king's square, transit square and destination
are not attacked by the opponent. -/
def castleMoves (p : Position) : List Move :=
  let c := p.sideToMove
  let opp := c.other
  match c with
  | .white =>
      let ks :=
        if p.castleWK && decide (pieceAt p 4 = some ⟨.king, .white⟩)
            && decide (pieceAt p 7 = some ⟨.rook, .white⟩)
            && decide (pieceAt p 5 = none) && decide (pieceAt p 6 = none)
            && !isSquareAttacked p 4 opp && !isSquareAttacked p 5 opp
            && !isSquareAttacked p 6 opp then
          [Move.mk 4 6 none .castleKS]
        else []
      let qs :=
        if p.castleWQ && decide (pieceAt p 4 = some ⟨.king, .white⟩)
            && decide (pieceAt p 0 = some ⟨.rook, .white⟩)
            && decide (pieceAt p 1 = none) && decide (pieceAt p 2 = none)
            && decide (pieceAt p 3 = none)
            && !isSquareAttacked p 4 opp && !isSquareAttacked p 3 opp
            && !isSquareAttacked p 2 opp then
          [Move.mk 4 2 none .castleQS]
        else []
      ks ++ qs
  | .black =>
      let ks :=
        if p.castleBK && decide (pieceAt p 60 = some ⟨.king, .black⟩)
            && decide (pieceAt p 63 = some ⟨.rook, .black⟩)
            && decide (pieceAt p 61 = none) && decide (pieceAt p 62 = none)
            && !isSquareAttacked p 60 opp && !isSquareAttacked p 61 opp
            && !isSquareAttacked p 62 opp then
          [Move.mk 60 62 none .castleKS]
        else []
      let qs :=
        if p.castleBQ && decide (pieceAt p 60 = some ⟨.king, .black⟩)
            && decide (pieceAt p 56 = some ⟨.rook, .black⟩)
            && decide (pieceAt p 57 = none) && decide (pieceAt p 58 = none)
            && decide (pieceAt p 59 = none)
            && !isSquareAttacked p 60 opp && !isSquareAttacked p 59 opp
            && !isSquareAttacked p 58 opp then
          [Move.mk 60 58 none .castleQS]
        else []
      ks ++ qs

/-- Modelled from the spec: all pseudo-legal moves of the piece on `sq`,
empty when the square does not hold a piece of the side to move. -/
def pseudoMovesAt (p : Position) (sq : Nat) : List Move :=
  match pieceAt p sq with
  | some pc =>
      if pc.color = p.sideToMove then
        match pc.pt with
        | .pawn => pawnMovesAt p sq
        | .knight => leaperMovesAt p sq knightOffsets
        | .bishop => sliderMovesAt p sq diagDirs
        | .rook => sliderMovesAt p sq orthoDirs
        | .queen => sliderMovesAt p sq (orthoDirs ++ diagDirs)
        | .king =>
            leaperMovesAt p sq kingOffsets ++
              (if sq = homeSquare p.sideToMove then castleMoves p else [])
      else []
  | none => []

/-- The square of the pawn removed by an en-passant capture (one rank behind
the destination, from the mover's point of view). -/
def epCapturedSq (c : Color) (dest : Nat) : Nat :=
  match c with
  | .white => dest - 8
  | .black => dest + 8

/-- Modelled from the spec: apply a move to a Position — relocate the mover
(or the promoted piece), remove the en-passant-captured pawn from its own
square, relocate the rook on castling, clear castling rights when the
relevant king or rook moves or a piece arrives on a rook's home square, set
the en-passant target exactly on a double pawn push, update the halfmove
clock and fullmove number, and toggle the side to move.  A move whose origin
is empty leaves the position unchanged. -/
def applyMove (p : Position) (m : Move) : Position :=
  match pieceAt p m.orig with
  | none => p
  | some mover =>
      let isCapture := (pieceAt p m.dest).isSome || decide (m.kind = .enPassant)
      let placed : Piece :=
        match m.promo with
        | some pt => ⟨pt, mover.color⟩
        | none => mover
      let b1 := p.board.set m.orig none
      let b2 :=
        if m.kind = .enPassant then b1.set (epCapturedSq mover.color m.dest) none
        else b1
      let b3 := b2.set m.dest (some placed)
      let b4 :=
        match m.kind, mover.color with
        | .castleKS, .white => (b3.set 7 none).set 5 (some ⟨.rook, .white⟩)
        | .castleQS, .white => (b3.set 0 none).set 3 (some ⟨.rook, .white⟩)
        | .castleKS, .black => (b3.set 63 none).set 61 (some ⟨.rook, .black⟩)
        | .castleQS, .black => (b3.set 56 none).set 59 (some ⟨.rook, .black⟩)
        | _, _ => b3
      { board := b4,
        sideToMove := p.sideToMove.other,
        castleWK := p.castleWK && decide (m.orig ≠ 4 ∧ m.orig ≠ 7 ∧ m.dest ≠ 7),
        castleWQ := p.castleWQ && decide (m.orig ≠ 4 ∧ m.orig ≠ 0 ∧ m.dest ≠ 0),
        castleBK := p.castleBK && decide (m.orig ≠ 60 ∧ m.orig ≠ 63 ∧ m.dest ≠ 63),
        castleBQ := p.castleBQ && decide (m.orig ≠ 60 ∧ m.orig ≠ 56 ∧ m.dest ≠ 56),
        enPassantTarget :=
          if m.kind = .doublePush then some ((m.orig + m.dest) / 2) else none,
        halfmoveClock :=
          if mover.pt = .pawn ∨ isCapture = true then 0 else p.halfmoveClock + 1,
        fullmoveNumber :=
          if p.sideToMove = .black then p.fullmoveNumber + 1 else p.fullmoveNumber }

/-- Modelled from the spec: the simulate-then-check legality filter — apply
the move to a scratch copy, find the mover's king (by its updated square if
the king itself moved) and keep the move only when that king is not attacked
by the opponent. -/
def isLegalMove (p : Position) (m : Move) : Bool :=
  let q := applyMove p m
  match kingSquare q p.sideToMove with
  | some ks => !isSquareAttacked q ks p.sideToMove.other
  | none => false

/-- Legal moves of the piece on `sq` (pseudo-legal moves surviving the
legality filter). -/
def genLegalAt (p : Position) (sq : Nat) : List Move :=
  (pseudoMovesAt p sq).filter (isLegalMove p)

/-- Modelled from the spec: `generateMoves()` — fails with `NoKingPresent`
when the side to move has no king, otherwise returns the legal moves of
every piece of the side to move, scanning squares in a fixed order. -/
def generateMoves (p : Position) : Except EngineError (List Move) :=
  match kingSquare p p.sideToMove with
  | none => .error .NoKingPresent
  | some _ => .ok ((List.range 64).flatMap (genLegalAt p))

/-- Modelled from the spec: `setPieces` — replaces the placement wholesale
from a list of (PieceType, Color, Square) triples and leaves the auxiliary
state (castling rights, en-passant target, counters) at cleared defaults;
nothing is inferred from the placement. -/
def setPieces (p : Position) (pieces : List (PieceType × Color × Nat)) :
    Position :=
  { board := (List.range 64).map fun sq =>
      (pieces.find? fun t => t.2.2 = sq).map fun t => ⟨t.1, t.2.1⟩,
    sideToMove := p.sideToMove,
    castleWK := false, castleWQ := false, castleBK := false, castleBQ := false,
    enPassantTarget := none,
    halfmoveClock := 0,
    fullmoveNumber := 1 }

/-- Modelled from the spec: `setSideToMove` — sets the side to move
independently of everything else. -/
def setSideToMove (p : Position) (c : Color) : Position :=
  { p with sideToMove := c }

/-- Lowercase algebraic file letter of a square. -/
def fileChar (sq : Nat) : Char :=
  if sq % 8 = 0 then 'a' else if sq % 8 = 1 then 'b'
  else if sq % 8 = 2 then 'c' else if sq % 8 = 3 then 'd'
  else if sq % 8 = 4 then 'e' else if sq % 8 = 5 then 'f'
  else if sq % 8 = 6 then 'g' else 'h'

/-- Algebraic rank digit of a square. -/
def rankChar (sq : Nat) : Char :=
  if sq / 8 = 0 then '1' else if sq / 8 = 1 then '2'
  else if sq / 8 = 2 then '3' else if sq / 8 = 3 then '4'
  else if sq / 8 = 4 then '5' else if sq / 8 = 5 then '6'
  else if sq / 8 = 6 then '7' else '8'

/-- Lowercase promotion letter. -/
def promoChar (pt : PieceType) : Char :=
  match pt with
  | .knight => 'n' | .bishop => 'b' | .rook => 'r' | .queen => 'q'
  | .pawn => 'p' | .king => 'k'

/-- Modelled from the spec: UCI coordinate serialization of a move —
origin square, destination square, and a trailing lowercase letter on
promotions. -/
def uciOfMove (m : Move) : String :=
  ⟨[fileChar m.orig, rankChar m.orig, fileChar m.dest, rankChar m.dest] ++
    (match m.promo with
     | some pt => [promoChar pt]
     | none => [])⟩

/-- `generate_moves` as surfaced to Python: a list of UCI move strings. -/
def generateMovesUci (p : Position) : Except EngineError (List String) :=
  (generateMoves p).map fun ms => ms.map uciOfMove

/-- A position with an empty board (the state before any setup). -/
def emptyPosition : Position :=
  { board := List.replicate 64 none,
    sideToMove := .white,
    castleWK := false, castleWQ := false, castleBK := false, castleBQ := false,
    enPassantTarget := none,
    halfmoveClock := 0,
    fullmoveNumber := 1 }

/-- The standard initial chess position. -/
def initialPosition : Position :=
  { board :=
      [some ⟨.rook, .white⟩, some ⟨.knight, .white⟩, some ⟨.bishop, .white⟩,
       some ⟨.queen, .white⟩, some ⟨.king, .white⟩, some ⟨.bishop, .white⟩,
       some ⟨.knight, .white⟩, some ⟨.rook, .white⟩] ++
      List.replicate 8 (some ⟨.pawn, .white⟩) ++
      List.replicate 32 none ++
      List.replicate 8 (some ⟨.pawn, .black⟩) ++
      [some ⟨.rook, .black⟩, some ⟨.knight, .black⟩, some ⟨.bishop, .black⟩,
       some ⟨.queen, .black⟩, some ⟨.king, .black⟩, some ⟨.bishop, .black⟩,
       some ⟨.knight, .black⟩, some ⟨.rook, .black⟩],
    sideToMove := .white,
    castleWK := true, castleWQ := true, castleBK := true, castleBQ := true,
    enPassantTarget := none,
    halfmoveClock := 0,
    fullmoveNumber := 1 }

/-- Modelled from the spec: the per-pair scoping filter of
`generateMovesForPieces` — the legal moves of the piece on the requested
square when it has the requested type and belongs to the side to move,
empty otherwise. -/
def genForPair (p : Position) (pr : PieceType × Nat) : List Move :=
  if pieceAt p pr.2 = some ⟨pr.1, p.sideToMove⟩ then genLegalAt p pr.2 else []

/-- Modelled from the spec: `generateMovesForPieces` — a mapping from each
requested (PieceType, Square) pair to that piece's legal moves. -/
def generateMovesForPieces (p : Position)
    (pairs : List (PieceType × Nat)) : List ((PieceType × Nat) × List Move) :=
  pairs.map fun pr => (pr, genForPair p pr)

/-- Split a list into contiguous chunks of size `s` (the last chunk may be
shorter); `s = 0` is treated as 1 so the function is total. -/
def chunkList (s : Nat) (l : List α) : List (List α) :=
  match l with
  | [] => []
  | a :: t => (a :: t).take (max s 1) :: chunkList s ((a :: t).drop (max s 1))
termination_by l.length
decreasing_by
  simp only [List.length_drop, List.length_cons]
  omega

/-- Modelled from the spec: `generateForPiecesConcurrently` — partition the
request list across a fixed-size worker pool, let each worker map its chunk
through the same per-pair generator against the shared read-only Position,
and merge the partial mappings in chunk order. -/
def generateForPiecesConcurrently (p : Position)
    (pairs : List (PieceType × Nat)) (workers : Nat) :
    List ((PieceType × Nat) × List Move) :=
  let chunkSize := max 1 ((pairs.length + workers - 1) / workers)
  let chunks := chunkList chunkSize pairs
  chunks.flatMap fun chunk => chunk.map fun pr => (pr, genForPair p pr)

/-! ## FEN codec -/

/-- FEN letter of a piece (uppercase white, lowercase black). -/
def pieceChar (pc : Piece) : Char :=
  match pc.color, pc.pt with
  | .white, .pawn => 'P' | .white, .knight => 'N' | .white, .bishop => 'B'
  | .white, .rook => 'R' | .white, .queen => 'Q' | .white, .king => 'K'
  | .black, .pawn => 'p' | .black, .knight => 'n' | .black, .bishop => 'b'
  | .black, .rook => 'r' | .black, .queen => 'q' | .black, .king => 'k'

/-- Piece denoted by a FEN letter, `none` for an unrecognized letter. -/
def charPiece (c : Char) : Option Piece :=
  match c with
  | 'P' => some ⟨.pawn, .white⟩ | 'N' => some ⟨.knight, .white⟩
  | 'B' => some ⟨.bishop, .white⟩ | 'R' => some ⟨.rook, .white⟩
  | 'Q' => some ⟨.queen, .white⟩ | 'K' => some ⟨.king, .white⟩
  | 'p' => some ⟨.pawn, .black⟩ | 'n' => some ⟨.knight, .black⟩
  | 'b' => some ⟨.bishop, .black⟩ | 'r' => some ⟨.rook, .black⟩
  | 'q' => some ⟨.queen, .black⟩ | 'k' => some ⟨.king, .black⟩
  | _ => none

/-- Digit character of a small count. -/
def digitChar (d : Nat) : Char :=
  if d = 0 then '0' else if d = 1 then '1' else if d = 2 then '2'
  else if d = 3 then '3' else if d = 4 then '4' else if d = 5 then '5'
  else if d = 6 then '6' else if d = 7 then '7' else if d = 8 then '8'
  else '9'

/-- Numeric value of a digit character. -/
def charDigitVal (c : Char) : Nat := c.toNat - 48

/-- Modelled from the spec: run-length encode one placement rank.  `fuel`
counts the files still to visit, `f` is the current file and `e` the pending
run of empty squares. -/
def encRank (p : Position) (r : Nat) : Nat → Nat → Nat → List Char
  | 0, _, e => if e = 0 then [] else [digitChar e]
  | fuel + 1, f, e =>
      match pieceAt p (r * 8 + f) with
      | none => encRank p r fuel (f + 1) (e + 1)
      | some pc =>
          (if e = 0 then [] else [digitChar e]) ++
            pieceChar pc :: encRank p r fuel (f + 1) 0

/-- Join character groups with a separator character. -/
def joinSep (sep : Char) : List (List Char) → List Char
  | [] => []
  | [g] => g
  | g :: gs => g ++ sep :: joinSep sep gs

/-- Split characters at a separator character (inverse of `joinSep` on
separator-free groups). -/
def splitSep (sep : Char) : List Char → List (List Char)
  | [] => [[]]
  | c :: rest =>
      if c = sep then [] :: splitSep sep rest
      else
        match splitSep sep rest with
        | [] => [[c]]
        | g :: gs => (c :: g) :: gs

/-- Modelled from the spec: the FEN placement field — ranks 8 down to 1
separated by `/`, each run-length encoded. -/
def encodePlacement (p : Position) : List Char :=
  joinSep '/' (((List.range 8).reverse).map fun r => encRank p r 8 0 0)

/-- Modelled from the spec: the FEN castling field — the subset of `KQkq`
whose rights are held, or `-`. -/
def encodeCastle (wk wq bk bq : Bool) : List Char :=
  let s := (if wk then ['K'] else []) ++ (if wq then ['Q'] else []) ++
    (if bk then ['k'] else []) ++ (if bq then ['q'] else [])
  if s = [] then ['-'] else s

/-- Modelled from the spec: the FEN en-passant field — the target square in
algebraic notation, or `-`. -/
def encodeEp (ep : Option Nat) : List Char :=
  match ep with
  | none => ['-']
  | some sq => [fileChar sq, rankChar sq]

/-- Little-endian decimal digits of `n`, fuel-bounded (callers pass `n`
itself, which always suffices). -/
def digitsRev (fuel : Nat) (n : Nat) : List Nat :=
  match fuel with
  | 0 => []
  | fuel + 1 => if n = 0 then [] else n % 10 :: digitsRev fuel (n / 10)

/-- Decimal notation of a natural number. -/
def natToChars (n : Nat) : List Char :=
  if n = 0 then ['0'] else ((digitsRev n n).map digitChar).reverse

/-- Modelled from the spec: `encode(Position)` — the six space-separated FEN
fields: placement, side to move, castling rights, en-passant target,
halfmove clock, fullmove number. -/
def encodeFen (p : Position) : String :=
  ⟨joinSep ' '
    [encodePlacement p,
     [match p.sideToMove with | .white => 'w' | .black => 'b'],
     encodeCastle p.castleWK p.castleWQ p.castleBK p.castleBQ,
     encodeEp p.enPassantTarget,
     natToChars p.halfmoveClock,
     natToChars p.fullmoveNumber]⟩

/-- Decode one placement rank into its eight squares; fails on an
unrecognized piece letter (digits expand to runs of empty squares). -/
def decRank : List Char → Except EngineError (List (Option Piece))
  | [] => .ok []
  | c :: rest =>
      if '1' ≤ c ∧ c ≤ '8' then
        (decRank rest).map fun tl => List.replicate (charDigitVal c) none ++ tl
      else
        match charPiece c with
        | some pc => (decRank rest).map fun tl => some pc :: tl
        | none => .error .MalformedFen

/-- Decode the placement field: eight `/`-separated ranks, each covering
exactly eight squares; the board list is assembled rank 1 first. -/
def decodePlacement (l : List Char) :
    Except EngineError (List (Option Piece)) := do
  let rankStrs := splitSep '/' l
  if rankStrs.length = 8 then
    let ranks ← rankStrs.mapM fun rs => do
      let sqs ← decRank rs
      if sqs.length = 8 then pure sqs else .error .MalformedFen
    pure ranks.reverse.flatten
  else .error .MalformedFen

/-- Decode the side-to-move field; fails on a token other than `w`/`b`. -/
def decodeSide (l : List Char) : Except EngineError Color :=
  match l with
  | ['w'] => .ok .white
  | ['b'] => .ok .black
  | _ => .error .MalformedFen

/-- Decode the castling field by letter membership (`-` yields no rights). -/
def decodeCastle (l : List Char) : Bool × Bool × Bool × Bool :=
  (l.contains 'K', l.contains 'Q', l.contains 'k', l.contains 'q')

/-- Decode the en-passant field: `-` or an algebraic square. -/
def decodeEp (l : List Char) : Except EngineError (Option Nat) :=
  match l with
  | ['-'] => .ok none
  | [fc, rc] =>
      if 'a' ≤ fc ∧ fc ≤ 'h' ∧ '1' ≤ rc ∧ rc ≤ '8' then
        .ok (some ((charDigitVal rc - 1) * 8 + (fc.toNat - 97)))
      else .error .MalformedFen
  | _ => .error .MalformedFen

/-- Parse an all-digit decimal numeral. -/
def parseNat (l : List Char) : Except EngineError Nat :=
  if l ≠ [] ∧ l.all (fun c => '0' ≤ c ∧ c ≤ '9') then
    .ok (l.foldl (fun acc c => acc * 10 + charDigitVal c) 0)
  else .error .MalformedFen

/-- Modelled from the spec: `decode(text)` — parse the six space-separated
FEN fields into a Position, failing with `MalformedFen` on a wrong field
count, a bad rank, an unrecognized piece letter or a bad side-to-move
token. -/
def decodeFen (s : String) : Except EngineError Position :=
  match splitSep ' ' s.data with
  | [pl, sd, ca, ep, hm, fm] => do
      let board ← decodePlacement pl
      let side ← decodeSide sd
      let (wk, wq, bk, bq) := decodeCastle ca
      let epT ← decodeEp ep
      let h ← parseNat hm
      let f ← parseNat fm
      pure { board := board, sideToMove := side,
             castleWK := wk, castleWQ := wq, castleBK := bk, castleBQ := bq,
             enPassantTarget := epT, halfmoveClock := h, fullmoveNumber := f }
  | _ => .error .MalformedFen

end Chess

namespace BatchMoveGen

open Chess

/-- One entry of the JSON position dataset consumed by
`batch_generate_moves`: a piece list and a side to move. -/
structure PositionSpec where
  pieces : List (PieceType × Color × Nat)
  side_to_move : Color
deriving DecidableEq, Repr

/-- `batch_generate_moves` from `batch_move_gen.py`: one shared board is
created once, then for each input position its pieces and side to move are
set and `generate_moves` is called, the results being appended in input
order. -/
def batch_generate_moves (positions : List PositionSpec) :
    List (Except EngineError (List String)) :=
  (positions.foldl
    (fun (st : Position × List (Except EngineError (List String))) pos =>
      let board := setSideToMove (setPieces st.1 pos.pieces) pos.side_to_move
      (board, st.2 ++ [generateMovesUci board]))
    (emptyPosition, [])).2

end BatchMoveGen

namespace PerfFull

/-- Error raised by Python builtins on an empty sequence (`max()`/`min()`
with no arguments). -/
inductive PyError where
  | EmptySequence
deriving DecidableEq, Repr

/-- The per-worker statistics dictionary built by `worker_loop` in
`pref-full.py`; times are modelled as rationals. -/
structure WorkerResult where
  worker_id : Nat
  positions : Nat
  moves_generated : Nat
  position_times : List ℚ
  start_time : ℚ
  end_time : ℚ

/-- The aggregated report dictionary of `aggregate_results`; the two
order-statistic fields (`median_time_per_position`,
`p95_time_per_position`) are not modelled, no claim refers to them. -/
structure Aggregated where
  total_positions : Nat
  total_moves : Nat
  avg_moves_per_position : ℚ
  total_time : ℚ
  mean_time_per_position : ℚ
  moves_per_second : ℚ

/-- Python's `max()` over a sequence: fails on an empty one. -/
def pyMax (l : List ℚ) : Except PyError ℚ :=
  match l with
  | [] => .error .EmptySequence
  | a :: t => .ok (t.foldl max a)

/-- Python's `min()` over a sequence: fails on an empty one. -/
def pyMin (l : List ℚ) : Except PyError ℚ :=
  match l with
  | [] => .error .EmptySequence
  | a :: t => .ok (t.foldl min a)

/-- `aggregate_results` from `pref-full.py`: totals over the worker results,
the average moves per position guarded by `total_positions` being nonzero,
the wall-clock span from the extreme start/end times, the mean per-position
time guarded by `all_times` being nonempty, and the move throughput guarded
by the summed times being positive. -/
def aggregate_results (worker_results : List WorkerResult) :
    Except PyError Aggregated := do
  let total_positions := (worker_results.map (·.positions)).sum
  let total_moves := (worker_results.map (·.moves_generated)).sum
  let all_times := worker_results.flatMap (·.position_times)
  let maxEnd ← pyMax (worker_results.map (·.end_time))
  let minStart ← pyMin (worker_results.map (·.start_time))
  pure
    { total_positions := total_positions,
      total_moves := total_moves,
      avg_moves_per_position :=
        if total_positions ≠ 0 then (total_moves : ℚ) / total_positions else 0,
      total_time := maxEnd - minStart,
      mean_time_per_position :=
        if all_times ≠ [] then all_times.sum / all_times.length else 0,
      moves_per_second :=
        if all_times.sum > 0 then (total_moves : ℚ) / all_times.sum else 0 }

end PerfFull

namespace Chess

/-! ## Structural lemmas about the move generator -/

theorem shift_lt (sq : Nat) (df dr : Int) (s : Nat) (h : shift sq df dr = some s) :
    s < 64 := by
  unfold shift at h
  dsimp only at h
  split at h
  · rename_i hb
    cases h
    unfold onBoard at hb
    simp only [Bool.and_eq_true, decide_eq_true_eq] at hb
    unfold mkSq
    omega
  · exact absurd h (by simp)

theorem rayDests_lt (p : Position) (c : Color) (df dr : Int) :
    ∀ (fuel : Nat) (f r : Int) (s : Nat),
      s ∈ rayDests p c f r df dr fuel → s < 64 := by
  intro fuel
  induction fuel with
  | zero => intro f r s h; simp [rayDests] at h
  | succ n ih =>
      intro f r s h
      unfold rayDests at h
      dsimp only at h
      split at h
      · rename_i hb
        unfold onBoard at hb
        simp only [Bool.and_eq_true, decide_eq_true_eq] at hb
        split at h
        · rcases List.mem_cons.mp h with h1 | h2
          · subst h1; unfold mkSq; omega
          · exact ih _ _ _ h2
        · split at h
          · simp at h
          · rcases List.mem_singleton.mp h with rfl
            unfold mkSq; omega
      · simp at h

theorem mem_leaperMovesAt (p : Position) (sq : Nat) (offs : List (Int × Int))
    (m : Move) (h : m ∈ leaperMovesAt p sq offs) :
    m.orig = sq ∧ m.dest < 64 ∧ m.kind = .normal := by
  unfold leaperMovesAt at h
  rcases List.mem_filterMap.mp h with ⟨d, _, hd⟩
  split at hd
  · rename_i s hs
    split at hd
    · exact absurd hd (by simp)
    · cases hd
      exact ⟨rfl, shift_lt _ _ _ _ hs, rfl⟩
  · exact absurd hd (by simp)

theorem mem_sliderMovesAt (p : Position) (sq : Nat) (dirs : List (Int × Int))
    (m : Move) (h : m ∈ sliderMovesAt p sq dirs) :
    m.orig = sq ∧ m.dest < 64 ∧ m.kind = .normal := by
  unfold sliderMovesAt at h
  rcases List.mem_flatMap.mp h with ⟨d, _, hd⟩
  rcases List.mem_map.mp hd with ⟨s, hs, rfl⟩
  exact ⟨rfl, rayDests_lt p p.sideToMove d.1 d.2 8 _ _ s hs, rfl⟩

theorem mem_promoExpand (c : Color) (o d : Nat) (k : MoveKind) (m : Move)
    (h : m ∈ promoExpand c o d k) : m.orig = o ∧ m.dest = d ∧ m.kind = k := by
  unfold promoExpand at h
  dsimp only at h
  split at h
  · rcases List.mem_map.mp h with ⟨pt, _, rfl⟩
    exact ⟨rfl, rfl, rfl⟩
  · rcases List.mem_singleton.mp h with rfl
    exact ⟨rfl, rfl, rfl⟩

theorem mem_pawnMovesAt (p : Position) (sq : Nat) (m : Move)
    (h : m ∈ pawnMovesAt p sq) :
    m.orig = sq ∧ m.dest < 64 ∧
      (m.kind = .enPassant → p.enPassantTarget = some m.dest) := by
  unfold pawnMovesAt at h
  dsimp only at h
  simp only [List.append_assoc, List.mem_append] at h
  rcases h with h | h | h | h
  · -- single push
    split at h
    · rename_i d hs
      split at h
      · obtain ⟨h1, h2, h3⟩ := mem_promoExpand _ _ _ _ _ h
        exact ⟨h1, h2 ▸ shift_lt _ _ _ _ hs, by simp [h3]⟩
      · exact absurd h (by simp)
    · exact absurd h (by simp)
  · -- double push
    split at h
    · split at h
      · rename_i mid d hm hd
        split at h
        · rcases List.mem_singleton.mp h with rfl
          exact ⟨rfl, shift_lt _ _ _ _ hd, by simp⟩
        · exact absurd h (by simp)
      · exact absurd h (by simp)
    · exact absurd h (by simp)
  · -- capture towards lower files
    split at h
    · rename_i d hs
      split at h
      · obtain ⟨h1, h2, h3⟩ := mem_promoExpand _ _ _ _ _ h
        exact ⟨h1, h2 ▸ shift_lt _ _ _ _ hs, by simp [h3]⟩
      · split at h
        · rename_i hep
          rcases List.mem_singleton.mp h with rfl
          exact ⟨rfl, shift_lt _ _ _ _ hs, fun _ => hep⟩
        · exact absurd h (by simp)
    · exact absurd h (by simp)
  · -- capture towards higher files
    split at h
    · rename_i d hs
      split at h
      · obtain ⟨h1, h2, h3⟩ := mem_promoExpand _ _ _ _ _ h
        exact ⟨h1, h2 ▸ shift_lt _ _ _ _ hs, by simp [h3]⟩
      · split at h
        · rename_i hep
          rcases List.mem_singleton.mp h with rfl
          exact ⟨rfl, shift_lt _ _ _ _ hs, fun _ => hep⟩
        · exact absurd h (by simp)
    · exact absurd h (by simp)

theorem mem_castleMoves (p : Position) (m : Move) (h : m ∈ castleMoves p) :
    m.orig = homeSquare p.sideToMove ∧
      m.dest < 64 ∧ (m.kind = .castleKS ∨ m.kind = .castleQS) := by
  unfold castleMoves at h
  rcases hc : p.sideToMove with _ | _ <;>
    simp only [hc, homeSquare] at h ⊢ <;>
    simp only [List.mem_append] at h <;>
    rcases h with h | h <;> split at h <;>
    first
    | (rcases List.mem_singleton.mp h with rfl
       exact ⟨rfl, by decide, by simp⟩)
    | exact absurd h (by simp)

theorem mem_pseudoMovesAt (p : Position) (sq : Nat) (m : Move)
    (h : m ∈ pseudoMovesAt p sq) :
    m.orig = sq ∧ m.dest < 64 ∧
      (m.kind = .enPassant → p.enPassantTarget = some m.dest) := by
  unfold pseudoMovesAt at h
  split at h
  · split at h
    · rename_i pc hp hc
      rcases pc with ⟨pt, c⟩
      rcases pt with _ | _ | _ | _ | _ | _
      · exact mem_pawnMovesAt p sq m h
      · obtain ⟨h1, h2, h3⟩ := mem_leaperMovesAt p sq _ m h
        exact ⟨h1, h2, by simp [h3]⟩
      · obtain ⟨h1, h2, h3⟩ := mem_sliderMovesAt p sq _ m h
        exact ⟨h1, h2, by simp [h3]⟩
      · obtain ⟨h1, h2, h3⟩ := mem_sliderMovesAt p sq _ m h
        exact ⟨h1, h2, by simp [h3]⟩
      · obtain ⟨h1, h2, h3⟩ := mem_sliderMovesAt p sq _ m h
        exact ⟨h1, h2, by simp [h3]⟩
      · rcases List.mem_append.mp h with hk | hk
        · obtain ⟨h1, h2, h3⟩ := mem_leaperMovesAt p sq _ m hk
          exact ⟨h1, h2, by simp [h3]⟩
        · split at hk
          · rename_i hsq
            obtain ⟨h1, h2, h3⟩ := mem_castleMoves p m hk
            refine ⟨by rw [h1, hsq], h2, ?_⟩
            rcases h3 with h3 | h3 <;> simp [h3]
          · exact absurd hk (by simp)
    · exact absurd h (by simp)
  · exact absurd h (by simp)

theorem mem_pseudoMovesAt_ownPiece (p : Position) (sq : Nat) (m : Move)
    (h : m ∈ pseudoMovesAt p sq) :
    ∃ pc, pieceAt p sq = some pc ∧ pc.color = p.sideToMove := by
  unfold pseudoMovesAt at h
  split at h
  · split at h
    · rename_i pc hp hc
      exact ⟨pc, hp, hc⟩
    · exact absurd h (by simp)
  · exact absurd h (by simp)

theorem pieceAt_some_lt (p : Position) (sq : Nat) (pc : Piece)
    (h : pieceAt p sq = some pc) : sq < 64 := by
  unfold pieceAt at h
  split at h
  · assumption
  · exact absurd h (by simp)

theorem generateMoves_ok_elim (p : Position) (ms : List Move)
    (hok : generateMoves p = .ok ms) :
    ms = (List.range 64).flatMap (genLegalAt p) := by
  unfold generateMoves at hok
  split at hok
  · exact absurd hok (by simp)
  · exact (Except.ok.injEq _ _ ▸ hok.symm)

/-- The two-king fixture position (white king e1, black king e8, white to
move) used to instantiate the universally quantified theorems. -/
def kingsOnly : Position :=
  setSideToMove (setPieces emptyPosition [(.king, .white, 4), (.king, .black, 60)]) .white

/-- The legal moves of the two-king fixture, in generation order. -/
def kingsOnlyMoves : List Move :=
  [⟨4, 12, none, .normal⟩, ⟨4, 13, none, .normal⟩, ⟨4, 5, none, .normal⟩,
   ⟨4, 3, none, .normal⟩, ⟨4, 11, none, .normal⟩]

/-! ## C1 — legality of every generated move -/

/-- C1: every move returned by a successful `generateMoves()` is legal:
after applying it, the mover's own king is on the board and is not attacked
by the opponent (the simulate-then-check filter discards all others,
en-passant captures included since `applyMove` removes the captured pawn
from its own square before the check). -/
theorem generated_moves_leave_king_safe (p : Position) (ms : List Move)
    (m : Move) (hok : generateMoves p = .ok ms) (hm : m ∈ ms) :
    ∃ ks, kingSquare (applyMove p m) p.sideToMove = some ks ∧
      isSquareAttacked (applyMove p m) ks p.sideToMove.other = false := by
  rw [generateMoves_ok_elim p ms hok] at hm
  rcases List.mem_flatMap.mp hm with ⟨sq, _, hsq⟩
  have hleg : isLegalMove p m = true := (List.mem_filter.mp hsq).2
  unfold isLegalMove at hleg
  dsimp only at hleg
  split at hleg
  · rename_i ks hks
    exact ⟨ks, hks, by simpa using hleg⟩
  · exact absurd hleg (by simp)

/-- Witness for C1 at the two-king fixture and the move e1e2. -/
theorem generated_moves_leave_king_safe_witness :
    generateMoves kingsOnly = .ok kingsOnlyMoves ∧
    (⟨4, 12, none, .normal⟩ : Move) ∈ kingsOnlyMoves ∧
    ∃ ks, kingSquare (applyMove kingsOnly ⟨4, 12, none, .normal⟩) .white = some ks ∧
      isSquareAttacked (applyMove kingsOnly ⟨4, 12, none, .normal⟩) ks
        Color.white.other = false :=
  ⟨by decide, by decide,
   generated_moves_leave_king_safe kingsOnly kingsOnlyMoves _ (by decide) (by decide)⟩

/-! ## C6 — generation fails exactly when the mover has no king -/

/-- C6: `generateMoves()` fails if and only if the side to move has no king
(the condition `kingSquare` reports), and the only error it ever returns is
`NoKingPresent`; otherwise it succeeds, an empty list being an ordinary
result. -/
theorem generateMoves_fails_iff_no_king (p : Position) :
    ((∃ e, generateMoves p = .error e) ↔ kingSquare p p.sideToMove = none) ∧
    (∀ e, generateMoves p = .error e → e = .NoKingPresent) := by
  unfold generateMoves
  rcases h : kingSquare p p.sideToMove with _ | ks <;> simp

/-- Witness for C6 at the empty board (no kings at all). -/
theorem generateMoves_fails_iff_no_king_witness :
    (∃ e, generateMoves emptyPosition = .error e) ∧
    EngineError.NoKingPresent = .NoKingPresent :=
  ⟨(generateMoves_fails_iff_no_king emptyPosition).1.mpr (by decide),
   (generateMoves_fails_iff_no_king emptyPosition).2 .NoKingPresent (by decide)⟩

/-! ## C8 — setPieces replaces the placement and clears auxiliary state -/

/-- C8: after `setPieces(list)` the placement is exactly the one described
by the list (first matching entry per square) and the auxiliary state is at
cleared defaults — all four castling rights false and no en-passant target —
whatever the list contains, so in particular nothing is ever inferred from
kings and rooks on their original squares. -/
theorem setPieces_replaces_and_clears (p : Position)
    (l : List (PieceType × Color × Nat)) :
    (setPieces p l).castleWK = false ∧ (setPieces p l).castleWQ = false ∧
    (setPieces p l).castleBK = false ∧ (setPieces p l).castleBQ = false ∧
    (setPieces p l).enPassantTarget = none ∧
    ∀ sq, sq < 64 →
      pieceAt (setPieces p l) sq =
        (l.find? fun t => t.2.2 = sq).map fun t => ⟨t.1, t.2.1⟩ := by
  refine ⟨rfl, rfl, rfl, rfl, rfl, fun sq hsq => ?_⟩
  unfold pieceAt setPieces
  simp [hsq, List.getD, List.getElem?_map, List.getElem?_range]

/-- Witness for C8: the castling fixture from `batch_move_gen.py` (kings and
rooks on their home squares) still comes out with cleared rights and the
placement given by the list. -/
theorem setPieces_replaces_and_clears_witness :
    (setPieces emptyPosition
        [(.rook, .white, 0), (.king, .white, 4), (.rook, .white, 7),
         (.rook, .black, 56), (.king, .black, 60), (.rook, .black, 63)]).castleWK
      = false ∧
    (0 : Nat) < 64 ∧
    pieceAt (setPieces emptyPosition
        [(.rook, .white, 0), (.king, .white, 4), (.rook, .white, 7),
         (.rook, .black, 56), (.king, .black, 60), (.rook, .black, 63)]) 0
      = some ⟨.rook, .white⟩ :=
  ⟨(setPieces_replaces_and_clears emptyPosition _).1, by decide,
   ((setPieces_replaces_and_clears emptyPosition _).2.2.2.2.2 0 (by decide)).trans
     (by decide)⟩

end Chess

namespace BatchMoveGen

open Chess

/-- The board state `batch_generate_moves` builds for one dataset entry. -/
def setupBoard (pos : PositionSpec) : Position :=
  setSideToMove (setPieces emptyPosition pos.pieces) pos.side_to_move

theorem batch_loop (positions : List PositionSpec) (b : Position)
    (acc : List (Except EngineError (List String))) :
    (positions.foldl
      (fun (st : Position × List (Except EngineError (List String))) pos =>
        let board := setSideToMove (setPieces st.1 pos.pieces) pos.side_to_move
        (board, st.2 ++ [generateMovesUci board]))
      (b, acc)).2 =
      acc ++ positions.map fun pos => generateMovesUci (setupBoard pos) := by
  induction positions generalizing b acc with
  | nil => simp
  | cons pos t ih =>
      rw [List.foldl_cons, ih]
      simp [setupBoard, setSideToMove, setPieces]

/-! ## C9 — batch generation maps each input position independently -/

/-- C9: `batch_generate_moves` returns one entry per input position, in
input order; entry `i` is the `generate_moves` result of the board obtained
by setting up position `i`'s pieces and side to move (the board carried
across iterations leaks nothing, since `set_pieces` replaces the placement
and clears the auxiliary state). -/
theorem batch_generate_moves_maps_each (positions : List PositionSpec) :
    batch_generate_moves positions =
      (positions.map fun pos => generateMovesUci (setupBoard pos)) ∧
    (batch_generate_moves positions).length = positions.length := by
  have h := batch_loop positions emptyPosition []
  unfold batch_generate_moves
  rw [h]
  simp

end BatchMoveGen

namespace PerfFull

/-! ## C10 — aggregate_results divides only by nonzero totals -/

/-- Evaluation of `aggregate_results` on a nonempty worker list. -/
theorem aggregate_results_cons (w : WorkerResult) (t : List WorkerResult) :
    aggregate_results (w :: t) = .ok
      { total_positions := ((w :: t).map (·.positions)).sum,
        total_moves := ((w :: t).map (·.moves_generated)).sum,
        avg_moves_per_position :=
          if ((w :: t).map (·.positions)).sum ≠ 0 then
            ((((w :: t).map (·.moves_generated)).sum : Nat) : ℚ) /
              ((((w :: t).map (·.positions)).sum : Nat) : ℚ)
          else 0,
        total_time := (t.map (·.end_time)).foldl max w.end_time -
          (t.map (·.start_time)).foldl min w.start_time,
        mean_time_per_position :=
          if (w :: t).flatMap (·.position_times) ≠ [] then
            ((w :: t).flatMap (·.position_times)).sum /
              (((w :: t).flatMap (·.position_times)).length : ℚ)
          else 0,
        moves_per_second :=
          if ((w :: t).flatMap (·.position_times)).sum > 0 then
            ((((w :: t).map (·.moves_generated)).sum : Nat) : ℚ) /
              ((w :: t).flatMap (·.position_times)).sum
          else 0 } := rfl

/-- C10 (amended): for every nonempty list of worker results whose recorded
per-position times are nonnegative, `aggregate_results` succeeds and never
divides by zero: a zero total position count yields
`avg_moves_per_position = 0` and a zero summed time yields
`moves_per_second = 0`, while nonzero denominators yield the exact
quotients.  (On the empty list the function fails instead — see the
counterexample.) -/
theorem aggregate_results_guards_divisions (ws : List WorkerResult)
    (hne : ws ≠ [])
    (hnn : ∀ w ∈ ws, ∀ t ∈ w.position_times, (0 : ℚ) ≤ t) :
    ∃ agg, aggregate_results ws = .ok agg ∧
      ((ws.map (·.positions)).sum = 0 → agg.avg_moves_per_position = 0) ∧
      ((ws.flatMap (·.position_times)).sum = 0 → agg.moves_per_second = 0) ∧
      ((ws.map (·.positions)).sum ≠ 0 →
        agg.avg_moves_per_position =
          (((ws.map (·.moves_generated)).sum : Nat) : ℚ) /
            (((ws.map (·.positions)).sum : Nat) : ℚ)) ∧
      ((ws.flatMap (·.position_times)).sum ≠ 0 →
        agg.moves_per_second =
          (((ws.map (·.moves_generated)).sum : Nat) : ℚ) /
            (ws.flatMap (·.position_times)).sum) := by
  have hsum_nonneg : (0 : ℚ) ≤ (ws.flatMap (·.position_times)).sum := by
    refine List.sum_nonneg fun t ht => ?_
    rcases List.mem_flatMap.mp ht with ⟨w, hw, htw⟩
    exact hnn w hw t htw
  rcases ws with _ | ⟨w, t⟩
  · exact absurd rfl hne
  refine ⟨_, aggregate_results_cons w t, ?_, ?_, ?_, ?_⟩
  · intro h
    exact if_neg fun hn => hn h
  · intro h
    exact if_neg (by rw [h]; exact lt_irrefl 0)
  · intro h
    exact if_pos h
  · intro h
    exact if_pos (lt_of_le_of_ne hsum_nonneg (Ne.symm h))

/-- Counterexample for C10 as stated: on the empty worker list (reachable
when every worker fails) `aggregate_results` raises from `max()` on an empty
sequence instead of returning a zero `avg_moves_per_position`. -/
theorem aggregate_results_empty_fails :
    aggregate_results [] = .error .EmptySequence := rfl

/-- Witness for C10 at a single worker with no recorded positions. -/
theorem aggregate_results_guards_divisions_witness :
    ([⟨0, 0, 0, [], 0, 1⟩] : List WorkerResult) ≠ [] ∧
    ∃ agg, aggregate_results [⟨0, 0, 0, [], 0, 1⟩] = .ok agg ∧
      ((([⟨0, 0, 0, [], 0, 1⟩] : List WorkerResult).map (·.positions)).sum = 0 →
        agg.avg_moves_per_position = 0) :=
  ⟨by simp,
   match aggregate_results_guards_divisions [⟨0, 0, 0, [], 0, 1⟩] (by simp)
     (by simp) with
   | ⟨agg, h1, h2, _⟩ => ⟨agg, h1, fun h => h2 h⟩⟩

end PerfFull

namespace Chess

/-! ## C3 — concurrent generation equals serial generation -/

theorem chunkList_flatten {α : Type} (s : Nat) :
    ∀ l : List α, (chunkList s l).flatten = l
  | [] => by simp [chunkList]
  | a :: t => by
      rw [chunkList, List.flatten_cons,
        chunkList_flatten s ((a :: t).drop (max s 1))]
      exact List.take_append_drop _ _
termination_by l => l.length
decreasing_by
  simp only [List.length_drop, List.length_cons]
  omega

/-- C3: `generateForPiecesConcurrently` returns, for every Position, request
list and worker-pool size ≥ 1, exactly what the serial
`generateMovesForPieces` returns pair by pair — partitioning the work and
merging the chunk results never changes the output. -/
theorem concurrent_matches_serial (p : Position)
    (pairs : List (PieceType × Nat)) (workers : Nat) (_hw : 1 ≤ workers) :
    generateForPiecesConcurrently p pairs workers =
      generateMovesForPieces p pairs := by
  unfold generateForPiecesConcurrently generateMovesForPieces
  dsimp only
  rw [List.flatMap_def, ← List.map_flatten, chunkList_flatten]

/-- Witness for C3 at the two-king fixture, two request pairs and a pool of
two workers. -/
theorem concurrent_matches_serial_witness :
    1 ≤ 2 ∧
    generateForPiecesConcurrently kingsOnly [(.king, 4), (.queen, 3)] 2 =
      generateMovesForPieces kingsOnly [(.king, 4), (.queen, 3)] :=
  ⟨by decide, concurrent_matches_serial kingsOnly [(.king, 4), (.queen, 3)] 2 (by decide)⟩

/-! ## C2 — exactly twenty moves from the initial position -/

/-- The twenty legal moves of the standard initial position in generation
order: the sixteen single/double pawn pushes and the four knight moves. -/
def initialMoveList : List String :=
  ["b1c3", "b1a3", "g1h3", "g1f3",
   "a2a3", "a2a4", "b2b3", "b2b4", "c2c3", "c2c4", "d2d3", "d2d4",
   "e2e3", "e2e4", "f2f3", "f2f4", "g2g3", "g2g4", "h2h3", "h2h4"]

/-- C2: from the standard initial position `generateMoves()` succeeds with
exactly the twenty standard opening moves — all sixteen pawn single/double
pushes and the four knight moves, including `e2e4`, `g1f3` and `b1c3` — and
nothing else. -/
theorem generateMoves_initial_exactly_twenty :
    generateMovesUci initialPosition = .ok initialMoveList ∧
    initialMoveList.length = 20 ∧
    "e2e4" ∈ initialMoveList ∧ "g1f3" ∈ initialMoveList ∧
    "b1c3" ∈ initialMoveList :=
  ⟨by decide, by decide, by decide, by decide, by decide⟩

/-! ## C4 — unions of scoped generation recover full generation -/

/-- Whether a request list covers every piece of the side to move: each
square holding an own piece appears in the list with that piece's type. -/
def coversOwnPieces (p : Position) (pairs : List (PieceType × Nat)) : Bool :=
  (List.range 64).all fun sq =>
    match pieceAt p sq with
    | some pc => decide (pc.color ≠ p.sideToMove) || decide ((pc.pt, sq) ∈ pairs)
    | none => true

/-- C4: whenever a request list covers every piece of the side to move, the
union of the per-pair move lists of `generateMovesForPieces` equals, as a
set, the successful result of `generateMoves()`. -/
theorem union_matches_generateMoves (p : Position)
    (pairs : List (PieceType × Nat)) (ms : List Move)
    (hok : generateMoves p = .ok ms) (hcov : coversOwnPieces p pairs = true)
    (m : Move) :
    m ∈ (generateMovesForPieces p pairs).flatMap (·.2) ↔ m ∈ ms := by
  rw [generateMoves_ok_elim p ms hok]
  constructor
  · intro h
    rcases List.mem_flatMap.mp h with ⟨entry, hin, hm⟩
    rcases List.mem_map.mp hin with ⟨pr, hpr, rfl⟩
    dsimp only at hm
    unfold genForPair at hm
    split at hm
    · rename_i hpc
      have hlt := pieceAt_some_lt p pr.2 _ hpc
      exact List.mem_flatMap.mpr ⟨pr.2, List.mem_range.mpr hlt, hm⟩
    · exact absurd hm (by simp)
  · intro h
    rcases List.mem_flatMap.mp h with ⟨sq, _, hm⟩
    have hpse : m ∈ pseudoMovesAt p sq := (List.mem_filter.mp hm).1
    rcases mem_pseudoMovesAt_ownPiece p sq m hpse with ⟨pc, hpc, hcol⟩
    have hlt := pieceAt_some_lt p sq pc hpc
    have hcv : (pc.pt, sq) ∈ pairs := by
      have hall := (List.all_eq_true.mp hcov) sq (List.mem_range.mpr hlt)
      rw [hpc] at hall
      simp only [Bool.or_eq_true, decide_eq_true_eq] at hall
      rcases hall with h1 | h1
      · exact absurd hcol h1
      · exact h1
    refine List.mem_flatMap.mpr
      ⟨((pc.pt, sq), genForPair p (pc.pt, sq)),
       List.mem_map.mpr ⟨(pc.pt, sq), hcv, rfl⟩, ?_⟩
    dsimp only
    unfold genForPair
    rw [if_pos]
    · exact hm
    · dsimp only
      rw [hpc, ← hcol]

/-- Witness for C4 at the two-king fixture with the single covering pair
(king, e1). -/
theorem union_matches_generateMoves_witness :
    generateMoves kingsOnly = .ok kingsOnlyMoves ∧
    coversOwnPieces kingsOnly [(.king, 4)] = true ∧
    ((⟨4, 12, none, .normal⟩ : Move) ∈
        (generateMovesForPieces kingsOnly [(.king, 4)]).flatMap (·.2) ↔
      (⟨4, 12, none, .normal⟩ : Move) ∈ kingsOnlyMoves) :=
  ⟨by decide, by decide,
   union_matches_generateMoves kingsOnly [(.king, 4)] kingsOnlyMoves
     (by decide) (by decide) ⟨4, 12, none, .normal⟩⟩

/-! ## C7 — en-passant target lifecycle -/

/-- Applying a move with an occupied origin sets the en-passant target
exactly on a double pawn push, to the skipped square. -/
theorem applyMove_enPassantTarget (p : Position) (m : Move) (mover : Piece)
    (hm : pieceAt p m.orig = some mover) :
    (applyMove p m).enPassantTarget =
      (if m.kind = .doublePush then some ((m.orig + m.dest) / 2) else none) := by
  unfold applyMove
  rw [hm]

/-- The position after the two-square push 1.e4, the quiet reply 1...a6 and
2.e5, then black's double push 2...f5: white to move with en-passant target
f6. -/
def epFixture : Position :=
  applyMove
    (applyMove
      (applyMove (applyMove initialPosition ⟨12, 28, none, .doublePush⟩)
        ⟨48, 40, none, .normal⟩)
      ⟨28, 36, none, .normal⟩)
    ⟨53, 37, none, .doublePush⟩

/-- C7: the en-passant target is set by a move exactly when that move is a
double pawn push (to the skipped square), it is replaced by whatever the
next applied move dictates — in particular any non-double-push next move
clears it, whether or not it was used — and an en-passant capture is only
ever generated onto the currently set target, so the target is usable for
exactly the one following ply. -/
theorem enPassant_lifecycle (p : Position) (m : Move) (mover : Piece)
    (hm : pieceAt p m.orig = some mover) :
    ((applyMove p m).enPassantTarget =
      (if m.kind = .doublePush then some ((m.orig + m.dest) / 2) else none)) ∧
    (∀ m' mover', pieceAt (applyMove p m) m'.orig = some mover' →
      m'.kind ≠ .doublePush →
      (applyMove (applyMove p m) m').enPassantTarget = none) ∧
    (∀ (r : Position) (sq : Nat) (mv : Move), mv ∈ pseudoMovesAt r sq →
      mv.kind = .enPassant → r.enPassantTarget = some mv.dest) :=
  ⟨applyMove_enPassantTarget p m mover hm,
   fun m' mover' hm' hk => by
     rw [applyMove_enPassantTarget (applyMove p m) m' mover' hm', if_neg hk],
   fun r sq mv hmem hk => (mem_pseudoMovesAt r sq mv hmem).2.2 hk⟩

/-- Witness for C7 along the opening line behind `epFixture`: 1.e4 sets the
target e3, 1...a6 clears it, and in `epFixture` the generated en-passant
capture e5xf6 lands exactly on the stored target f6. -/
theorem enPassant_lifecycle_witness :
    (applyMove initialPosition ⟨12, 28, none, .doublePush⟩).enPassantTarget =
      some 20 ∧
    (applyMove (applyMove initialPosition ⟨12, 28, none, .doublePush⟩)
      ⟨48, 40, none, .normal⟩).enPassantTarget = none ∧
    epFixture.enPassantTarget = some 45 :=
  ⟨((enPassant_lifecycle initialPosition ⟨12, 28, none, .doublePush⟩
      ⟨.pawn, .white⟩ (by decide)).1).trans (by decide),
   (enPassant_lifecycle initialPosition ⟨12, 28, none, .doublePush⟩
      ⟨.pawn, .white⟩ (by decide)).2.1 ⟨48, 40, none, .normal⟩ ⟨.pawn, .black⟩
      (by decide) (by decide),
   ((enPassant_lifecycle initialPosition ⟨12, 28, none, .doublePush⟩
      ⟨.pawn, .white⟩ (by decide)).2.2 epFixture 36 ⟨36, 45, none, .enPassant⟩
      (by decide) (by decide)).trans (by decide)⟩

/-! ## C5 — FEN round trip: list-splitting and numeral lemmas -/

theorem splitSep_of_not_mem (sep : Char) (a : List Char) (h : sep ∉ a) :
    splitSep sep a = [a] := by
  induction a with
  | nil => rfl
  | cons c rest ih =>
      unfold splitSep
      rw [if_neg fun hc => h (List.mem_cons.mpr (Or.inl hc.symm))]
      rw [ih fun hr => h (List.mem_cons_of_mem c hr)]

theorem splitSep_append (sep : Char) (a b : List Char) (h : sep ∉ a) :
    splitSep sep (a ++ sep :: b) = a :: splitSep sep b := by
  induction a with
  | nil => simp [splitSep]
  | cons c rest ih =>
      have hc : c ≠ sep := fun hc => h (List.mem_cons.mpr (Or.inl hc.symm))
      have hr : sep ∉ rest := fun hr => h (List.mem_cons_of_mem c hr)
      rw [List.cons_append]
      simp only [splitSep]
      rw [if_neg hc, ih hr]

theorem splitSep_nonempty (sep : Char) (l : List Char) :
    splitSep sep l ≠ [] := by
  cases l with
  | nil => simp [splitSep]
  | cons c rest =>
      unfold splitSep
      split
      · simp
      · split
        · simp
        · simp

theorem splitSep_joinSep (sep : Char) (gs : List (List Char)) (hne : gs ≠ [])
    (h : ∀ g ∈ gs, sep ∉ g) :
    splitSep sep (joinSep sep gs) = gs := by
  induction gs with
  | nil => exact absurd rfl hne
  | cons g rest ih =>
      cases rest with
      | nil => exact splitSep_of_not_mem sep g (h g (by simp))
      | cons g2 r2 =>
          show splitSep sep (g ++ sep :: joinSep sep (g2 :: r2)) = _
          rw [splitSep_append sep g _ (h g (by simp))]
          rw [ih (by simp) fun x hx => h x (List.mem_cons_of_mem g hx)]

theorem charDigitVal_digitChar (d : Nat) (h : d ≤ 9) :
    charDigitVal (digitChar d) = d := by
  interval_cases d <;> decide

theorem digitChar_isDigitChar (d : Nat) :
    '0' ≤ digitChar d ∧ digitChar d ≤ '9' := by
  unfold digitChar
  split_ifs <;> decide

theorem digitChar_ne_sep (d : Nat) :
    digitChar d ≠ ' ' ∧ digitChar d ≠ '/' := by
  unfold digitChar
  split_ifs <;> decide

theorem digitsRev_le_nine (fuel : Nat) : ∀ n, ∀ d ∈ digitsRev fuel n, d ≤ 9 := by
  induction fuel with
  | zero => intro n d hd; simp [digitsRev] at hd
  | succ fu ih =>
      intro n d hd
      unfold digitsRev at hd
      split at hd
      · simp at hd
      · rcases List.mem_cons.mp hd with rfl | hd
        · omega
        · exact ih _ d hd

theorem digitsRev_eval (fuel : Nat) :
    ∀ n, n ≤ fuel →
      (digitsRev fuel n).foldr (fun d acc => d + 10 * acc) 0 = n := by
  induction fuel with
  | zero => intro n hn; interval_cases n; simp [digitsRev]
  | succ fu ih =>
      intro n hn
      unfold digitsRev
      split
      · rename_i h0; simp [h0]
      · rename_i h0
        rw [List.foldr_cons, ih (n / 10) (by omega)]
        omega

theorem decodeSide_encodeSide (c : Color) :
    decodeSide [match c with | .white => 'w' | .black => 'b'] = .ok c := by
  rcases c <;> rfl

theorem decodeCastle_encodeCastle (wk wq bk bq : Bool) :
    decodeCastle (encodeCastle wk wq bk bq) = (wk, wq, bk, bq) := by
  rcases wk <;> rcases wq <;> rcases bk <;> rcases bq <;> decide

theorem encodeCastle_no_space (wk wq bk bq : Bool) :
    ' ' ∉ encodeCastle wk wq bk bq := by
  rcases wk <;> rcases wq <;> rcases bk <;> rcases bq <;> decide

theorem decodeEp_encodeEp_some : ∀ t, t < 64 →
    decodeEp (encodeEp (some t)) = .ok (some t) := by decide

theorem decodeEp_encodeEp (t : Option Nat) (ht : ∀ x ∈ t, x < 64) :
    decodeEp (encodeEp t) = .ok t := by
  rcases t with _ | x
  · rfl
  · exact decodeEp_encodeEp_some x (ht x rfl)

theorem fileChar_ne_space (sq : Nat) : fileChar sq ≠ ' ' := by
  unfold fileChar
  split_ifs <;> decide

theorem rankChar_ne_space (sq : Nat) : rankChar sq ≠ ' ' := by
  unfold rankChar
  split_ifs <;> decide

theorem encodeEp_no_space (t : Option Nat) : ' ' ∉ encodeEp t := by
  rcases t with _ | x
  · decide
  · intro h
    rcases List.mem_cons.mp h with h1 | h1
    · exact fileChar_ne_space x h1.symm
    · rcases List.mem_singleton.mp h1 with h2
      exact rankChar_ne_space x h2.symm

theorem foldr_digit_eval (dl : List Nat) (h : ∀ d ∈ dl, d ≤ 9) :
    dl.foldr (fun d acc => acc * 10 + charDigitVal (digitChar d)) 0 =
      dl.foldr (fun d acc => d + 10 * acc) 0 := by
  induction dl with
  | nil => rfl
  | cons d rest ih =>
      rw [List.foldr_cons, List.foldr_cons,
        ih fun x hx => h x (List.mem_cons_of_mem d hx),
        charDigitVal_digitChar d (h d (List.mem_cons_self d rest))]
      omega

theorem charPiece_pieceChar (pc : Piece) : charPiece (pieceChar pc) = some pc := by
  rcases pc with ⟨pt, c⟩
  rcases pt <;> rcases c <;> rfl

theorem pieceChar_not_digit (pc : Piece) :
    ¬('1' ≤ pieceChar pc ∧ pieceChar pc ≤ '8') := by
  rcases pc with ⟨pt, c⟩
  rcases pt <;> rcases c <;> decide

theorem pieceChar_ne_sep (pc : Piece) :
    pieceChar pc ≠ ' ' ∧ pieceChar pc ≠ '/' := by
  rcases pc with ⟨pt, c⟩
  rcases pt <;> rcases c <;> decide

theorem encRank_chars (p : Position) (r : Nat) :
    ∀ (fuel f e : Nat), ∀ c ∈ encRank p r fuel f e, c ≠ ' ' ∧ c ≠ '/' := by
  intro fuel
  induction fuel with
  | zero =>
      intro f e c hc
      unfold encRank at hc
      split at hc
      · simp at hc
      · rcases List.mem_singleton.mp hc with rfl
        exact digitChar_ne_sep e
  | succ fu ih =>
      intro f e c hc
      unfold encRank at hc
      split at hc
      · exact ih (f + 1) (e + 1) c hc
      · rename_i pc hp
        rcases List.mem_append.mp hc with hc1 | hc1
        · split at hc1
          · simp at hc1
          · rcases List.mem_singleton.mp hc1 with rfl
            exact digitChar_ne_sep e
        · rcases List.mem_cons.mp hc1 with rfl | hc2
          · exact pieceChar_ne_sep pc
          · exact ih (f + 1) 0 c hc2

theorem decRank_digit_cons (e : Nat) (h1 : 1 ≤ e) (h8 : e ≤ 8)
    (rest : List Char) :
    decRank (digitChar e :: rest) =
      (decRank rest).map fun tl => List.replicate e none ++ tl := by
  have hd : '1' ≤ digitChar e ∧ digitChar e ≤ '8' := by
    unfold digitChar
    split_ifs <;> first | decide | omega
  simp only [decRank]
  rw [if_pos hd, charDigitVal_digitChar e (by omega)]

theorem decRank_piece_cons (pc : Piece) (rest : List Char) :
    decRank (pieceChar pc :: rest) =
      (decRank rest).map fun tl => some pc :: tl := by
  simp only [decRank]
  rw [if_neg (pieceChar_not_digit pc), charPiece_pieceChar pc]

theorem decRank_encRank (p : Position) (r : Nat) :
    ∀ (fuel f e : Nat), e + fuel ≤ 8 →
      decRank (encRank p r fuel f e) =
        .ok (List.replicate e none ++
          (List.range' f fuel).map fun j => pieceAt p (r * 8 + j)) := by
  intro fuel
  induction fuel with
  | zero =>
      intro f e he
      unfold encRank
      by_cases h0 : e = 0
      · subst h0
        simp [decRank]
      · rw [if_neg h0, decRank_digit_cons e (by omega) (by omega)]
        simp [decRank, Except.map]
  | succ fu ih =>
      intro f e he
      unfold encRank
      rcases hp : pieceAt p (r * 8 + f) with _ | pc
      · show decRank (encRank p r fu (f + 1) (e + 1)) = _
        rw [ih (f + 1) (e + 1) (by omega)]
        rw [List.range'_succ, List.map_cons, hp, List.replicate_succ',
          List.append_assoc]
        rfl
      · show decRank ((if e = 0 then [] else [digitChar e]) ++
            pieceChar pc :: encRank p r fu (f + 1) 0) = _
        by_cases h0 : e = 0
        · subst h0
          rw [if_pos rfl, List.nil_append, decRank_piece_cons pc,
            ih (f + 1) 0 (by omega)]
          rw [List.range'_succ, List.map_cons, hp]
          rfl
        · rw [if_neg h0, List.singleton_append,
            decRank_digit_cons e (by omega) (by omega),
            decRank_piece_cons pc, ih (f + 1) 0 (by omega)]
          rw [List.range'_succ, List.map_cons, hp]
          rfl

theorem mem_joinSep (sep : Char) :
    ∀ (gs : List (List Char)) (c : Char),
      c ∈ joinSep sep gs → c = sep ∨ ∃ g ∈ gs, c ∈ g
  | [] => by intro c h; simp [joinSep] at h
  | [g] => by
      intro c h
      exact Or.inr ⟨g, by simp, h⟩
  | g :: g2 :: rest => by
      intro c h
      rcases List.mem_append.mp h with h1 | h1
      · exact Or.inr ⟨g, by simp, h1⟩
      · rcases List.mem_cons.mp h1 with rfl | h2
        · exact Or.inl rfl
        · rcases mem_joinSep sep (g2 :: rest) c h2 with h3 | ⟨g', hg', hc⟩
          · exact Or.inl h3
          · exact Or.inr ⟨g', List.mem_cons_of_mem g hg', hc⟩

theorem mapM_map_ok {E α β γ : Type} (h : α → β) (f : β → Except E γ)
    (g : α → γ) :
    ∀ l : List α, (∀ x ∈ l, f (h x) = .ok (g x)) →
      (l.map h).mapM f = .ok (l.map g) := by
  intro l
  induction l with
  | nil => intro _; rfl
  | cons a t ih =>
      intro hx
      rw [List.map_cons, List.mapM_cons, hx a (by simp),
        ih fun x hxt => hx x (by simp [hxt])]
      rfl

theorem map_getD_range {α : Type} (d : α) (l : List α) :
    (List.range l.length).map (fun i => l.getD i d) = l := by
  induction l with
  | nil => rfl
  | cons a t ih =>
      rw [List.length_cons, List.range_succ_eq_map, List.map_cons,
        List.map_map]
      rw [show ((fun i => (a :: t).getD i d) ∘ Nat.succ) =
          fun i => t.getD i d from funext fun i => List.getD_cons_succ]
      rw [ih]
      rfl

theorem map_pieceAt_range (p : Position) (hlen : p.board.length = 64) :
    (List.range 64).map (pieceAt p) = p.board := by
  have h1 : (List.range 64).map (pieceAt p) =
      (List.range 64).map fun i => p.board.getD i none := by
    refine List.map_congr_left fun i hi => ?_
    unfold pieceAt
    rw [if_pos (List.mem_range.mp hi)]
  rw [h1, ← hlen, map_getD_range]

theorem flatten_ranks_eq_board (p : Position) (hlen : p.board.length = 64) :
    ((List.range 8).map fun r =>
      (List.range' 0 8).map fun j => pieceAt p (r * 8 + j)).flatten =
      p.board := by
  rw [← List.flatMap_def]
  have h1 : ((List.range 8).flatMap fun r =>
      (List.range' 0 8).map fun j => pieceAt p (r * 8 + j)) =
      ((List.range 8).flatMap fun r =>
        (List.range' 0 8).map fun j => r * 8 + j).map (pieceAt p) := by
    rw [List.map_flatMap, List.flatMap_def, List.flatMap_def]
    congr 1
  rw [h1,
    show ((List.range 8).flatMap fun r =>
      (List.range' 0 8).map fun j => r * 8 + j) = List.range 64 by decide,
    map_pieceAt_range p hlen]

theorem decodePlacement_encodePlacement (p : Position)
    (hlen : p.board.length = 64) :
    decodePlacement (encodePlacement p) = .ok p.board := by
  unfold decodePlacement encodePlacement
  rw [splitSep_joinSep '/' _ (by simp) fun g hg => by
    rcases List.mem_map.mp hg with ⟨r, _, rfl⟩
    intro hs
    exact (encRank_chars p r 8 0 0 '/' hs).2 rfl]
  rw [if_pos (by simp)]
  rw [mapM_map_ok (fun r => encRank p r 8 0 0)
    (fun rs => do
      let sqs ← decRank rs
      if sqs.length = 8 then pure sqs else Except.error EngineError.MalformedFen)
    (fun r => (List.range' 0 8).map fun j => pieceAt p (r * 8 + j))
    ((List.range 8).reverse)
    (fun r _ => by
      show (do
        let sqs ← decRank (encRank p r 8 0 0)
        if sqs.length = 8 then pure sqs
        else Except.error EngineError.MalformedFen) = _
      rw [decRank_encRank p r 8 0 0 (by omega)]
      rfl)]
  show Except.ok _ = _
  rw [List.map_reverse, List.reverse_reverse, flatten_ranks_eq_board p hlen]

theorem parseNat_natToChars (n : Nat) : parseNat (natToChars n) = .ok n := by
  rcases Nat.eq_zero_or_pos n with rfl | hpos
  · decide
  · have h0 : n ≠ 0 := by omega
    unfold natToChars
    rw [if_neg h0]
    have hdig : ∀ d ∈ digitsRev n n, d ≤ 9 := digitsRev_le_nine n n
    have hne : digitsRev n n ≠ [] := by
      rcases n with _ | k
      · omega
      · unfold digitsRev
        simp
    unfold parseNat
    rw [if_pos]
    · congr 1
      rw [List.foldl_reverse, List.foldr_map, foldr_digit_eval _ hdig,
        digitsRev_eval n n le_rfl]
    · constructor
      · simp [hne]
      · rw [List.all_eq_true]
        intro c hc
        have hc2 := List.mem_reverse.mp hc
        rcases List.mem_map.mp hc2 with ⟨d, hd, rfl⟩
        simpa [decide_eq_true_eq] using digitChar_isDigitChar d

theorem natToChars_no_space (n : Nat) : ' ' ∉ natToChars n := by
  unfold natToChars
  split
  · decide
  · intro h
    have h2 := List.mem_reverse.mp h
    rcases List.mem_map.mp h2 with ⟨d, _, hd⟩
    exact (digitChar_ne_sep d).1 hd

theorem encodePlacement_no_space (p : Position) :
    ' ' ∉ encodePlacement p := by
  intro h
  rcases mem_joinSep '/' _ ' ' h with h1 | ⟨g, hg, hc⟩
  · exact absurd h1 (by decide)
  · rcases List.mem_map.mp hg with ⟨r, _, rfl⟩
    exact (encRank_chars p r 8 0 0 ' ' hc).1 rfl

/-- Round trip of the FEN codec on any well-formed Position: a 64-square
board and an on-board en-passant target (both invariants of reachable
positions). -/
theorem fen_round_trip (p : Position) (hlen : p.board.length = 64)
    (hep : ∀ t ∈ p.enPassantTarget, t < 64) :
    decodeFen (encodeFen p) = .ok p := by
  unfold decodeFen encodeFen
  rw [show (String.mk (joinSep ' '
      [encodePlacement p,
       [match p.sideToMove with | .white => 'w' | .black => 'b'],
       encodeCastle p.castleWK p.castleWQ p.castleBK p.castleBQ,
       encodeEp p.enPassantTarget,
       natToChars p.halfmoveClock,
       natToChars p.fullmoveNumber])).data = joinSep ' ' _ from rfl]
  rw [splitSep_joinSep ' ' _ (by simp) ?nospace]
  case nospace =>
    intro g hg
    simp only [List.mem_cons, List.not_mem_nil, or_false] at hg
    rcases hg with rfl | rfl | rfl | rfl | rfl | rfl
    · exact encodePlacement_no_space p
    · rcases p.sideToMove <;> decide
    · exact encodeCastle_no_space _ _ _ _
    · exact encodeEp_no_space _
    · exact natToChars_no_space _
    · exact natToChars_no_space _
  show (do
      let board ← decodePlacement (encodePlacement p)
      let side ← decodeSide
        [match p.sideToMove with | .white => 'w' | .black => 'b']
      let (wk, wq, bk, bq) := decodeCastle
        (encodeCastle p.castleWK p.castleWQ p.castleBK p.castleBQ)
      let epT ← decodeEp (encodeEp p.enPassantTarget)
      let h ← parseNat (natToChars p.halfmoveClock)
      let f ← parseNat (natToChars p.fullmoveNumber)
      pure { board := board, sideToMove := side,
             castleWK := wk, castleWQ := wq, castleBK := bk, castleBQ := bq,
             enPassantTarget := epT, halfmoveClock := h,
             fullmoveNumber := f }) = Except.ok p
  rw [decodePlacement_encodePlacement p hlen, decodeSide_encodeSide,
    decodeCastle_encodeCastle, decodeEp_encodeEp _ hep,
    parseNat_natToChars, parseNat_natToChars]
  rfl

/-- Positions reachable through legal play from the initial position. -/
inductive Reachable : Position → Prop where
  | init : Reachable initialPosition
  | step (p : Position) (ms : List Move) (m : Move) :
      Reachable p → generateMoves p = .ok ms → m ∈ ms →
      Reachable (applyMove p m)

theorem applyMove_board_length (p : Position) (m : Move) :
    (applyMove p m).board.length = p.board.length := by
  unfold applyMove
  split
  · rfl
  · dsimp only
    split <;> split_ifs <;> simp [List.length_set]

theorem reachable_wf (p : Position) (h : Reachable p) :
    p.board.length = 64 ∧ ∀ t ∈ p.enPassantTarget, t < 64 := by
  induction h with
  | init => exact ⟨by decide, fun t ht => by simp [initialPosition] at ht⟩
  | step p ms m hr hok hm ih =>
      refine ⟨by rw [applyMove_board_length]; exact ih.1, ?_⟩
      rw [generateMoves_ok_elim p ms hok] at hm
      rcases List.mem_flatMap.mp hm with ⟨sq, hsq, hlegal⟩
      have hpse : m ∈ pseudoMovesAt p sq := (List.mem_filter.mp hlegal).1
      obtain ⟨horig, hdest, -⟩ := mem_pseudoMovesAt p sq m hpse
      obtain ⟨pc, hpc, -⟩ := mem_pseudoMovesAt_ownPiece p sq m hpse
      have hmover : pieceAt p m.orig = some pc := by rw [horig]; exact hpc
      intro t ht
      rw [applyMove_enPassantTarget p m pc hmover] at ht
      split at ht
      · cases ht
        have hlt : m.orig < 64 := horig ▸ List.mem_range.mp hsq
        omega
      · simp at ht

/-! ## C5 — FEN round trip on reachable positions -/

/-- C5: for every Position reachable through legal play from the initial
position, `decode(encode(p))` reproduces `p` exactly; in particular the
standard initial FEN decodes to the initial position and the initial
position re-encodes to that exact string. -/
theorem fen_round_trip_reachable (p : Position) (hr : Reachable p) :
    decodeFen (encodeFen p) = .ok p ∧
    decodeFen "rnbqkbnr/pppppppp/8/8/8/8/PPPPPPPP/RNBQKBNR w KQkq - 0 1" =
      .ok initialPosition ∧
    encodeFen initialPosition =
      "rnbqkbnr/pppppppp/8/8/8/8/PPPPPPPP/RNBQKBNR w KQkq - 0 1" :=
  ⟨fen_round_trip p (reachable_wf p hr).1 (reachable_wf p hr).2,
   by decide, by decide⟩

/-- Witness for C5 at the initial position itself. -/
theorem fen_round_trip_reachable_witness :
    decodeFen (encodeFen initialPosition) = .ok initialPosition :=
  (fen_round_trip_reachable initialPosition Reachable.init).1

end Chess
